import Mathlib

/-!
# Verification of the statement parser of `postgres_lsp`

Shallow embedding of `crates/parser/src/statement.rs`: the logos-based
classifier lexer `StatementToken` and the reconciliation loop
`Parser::parse_statement`, which merges the classifier token stream with the
pg_query scan/parse results (the "Grammar Oracle") into a lossless concrete
syntax tree.

Texts are modelled as `List Char` (the inputs of interest are ASCII, where
byte indices and character indices coincide).  The Grammar Oracle (the
external `pg_query` crate) is modelled by passing its two results —
`scan` and `parse` — as explicit `Except` values.  The tree-building
methods of `Parser` (`start_node`, `token`, `error`, `close_until_depth`)
live in `parser.rs`, outside the embedded file; they are modelled from the
spec's Tree Builder contract (§4.4): an explicit stack of depth-tagged
frames over an implicit always-present root level.
-/

namespace PgLsp

/-! ## The classifier lexer (`StatementToken`, statement.rs lines 13-67)

The `logos` derive generates a maximal-munch lexer: at every position the
longest match among all declared patterns wins (no two distinct patterns
here can match the same nonzero length from the same start character, so no
priority tie-breaking is ever needed).  A position where no pattern matches
is a lexing error.
-/

inductive StatementToken where
  | Ascii37  -- "%"
  | Ascii40  -- "("
  | Ascii41  -- ")"
  | Ascii42  -- "*"
  | Ascii43  -- "+"
  | Ascii44  -- ","
  | Ascii45  -- "-"
  | Ascii46  -- "."
  | Ascii47  -- "/"
  | Ascii58  -- ":"
  | Ascii59  -- ";"
  | Ascii60  -- "<"
  | Ascii61  -- "="
  | Ascii62  -- ">"
  | Ascii63  -- "?"
  | Ascii91  -- "["
  | Ascii92  -- "\\"
  | Ascii93  -- "]"
  | Ascii94  -- "^"
  | Sconst     -- regex '([^']+)'
  | Word       -- regex \w+
  | Whitespace -- regex " +"
  | Newline    -- regex "\n+"
  | Tab        -- regex "\t+"
  | Comment    -- regex block comment | "--[^\n]*"
deriving Repr, DecidableEq

/-- The 19 single-character punctuation tokens of `StatementToken`. -/
def punctTok : Char → Option StatementToken
  | '%' => some .Ascii37
  | '(' => some .Ascii40
  | ')' => some .Ascii41
  | '*' => some .Ascii42
  | '+' => some .Ascii43
  | ',' => some .Ascii44
  | '-' => some .Ascii45
  | '.' => some .Ascii46
  | '/' => some .Ascii47
  | ':' => some .Ascii58
  | ';' => some .Ascii59
  | '<' => some .Ascii60
  | '=' => some .Ascii61
  | '>' => some .Ascii62
  | '?' => some .Ascii63
  | '[' => some .Ascii91
  | '\\' => some .Ascii92
  | ']' => some .Ascii93
  | '^' => some .Ascii94
  | _   => none

/-- Word characters of the regex class `\w` (ASCII fragment: the inputs in
scope are ASCII, where logos' `\w` is exactly letter, digit or underscore). -/
def isWordChar (c : Char) : Bool :=
  c.isAlphanum || c == '_'

/-- Length of the longest prefix whose characters all satisfy `p`. -/
def takeWhileLen (p : Char → Bool) : List Char → Nat
  | [] => 0
  | c :: cs => if p c then takeWhileLen p cs + 1 else 0

/-- Match length of the regex `'([^']+)'` (single-quoted string literal with
nonempty body; `[^']` includes the newline) at the head of the input. -/
def matchSconst : List Char → Option Nat
  | '\'' :: rest =>
    if takeWhileLen (fun c => !(c == '\'')) rest = 0 then none
    else
      match rest.drop (takeWhileLen (fun c => !(c == '\'')) rest) with
      | '\'' :: _ => some (takeWhileLen (fun c => !(c == '\'')) rest + 2)
      | _ => none
  | _ => none

/-- Match length of the line-comment half `--[^\n]*` of the comment regex. -/
def matchLineComment : List Char → Option Nat
  | '-' :: '-' :: rest => some (2 + takeWhileLen (fun c => !(c == '\n')) rest)
  | _ => none

/-- Index of the first occurrence of the two-character sequence `*/`. -/
def findClose : List Char → Option Nat
  | '*' :: '/' :: _ => some 0
  | _ :: rest => (findClose rest).map (· + 1)
  | [] => none

/-- Match length of the block-comment half of the comment regex
`/\*[^*]*\*+(?:[^/*][^*]*\*+)*/`, whose language is exactly `/*`, then the
shortest body ending at the first `*/`. -/
def matchBlockComment : List Char → Option Nat
  | '/' :: '*' :: rest => (findClose rest).map (· + 4)
  | _ => none

/-- One maximal-munch step of the logos lexer: the winning token and its
match length at the head of the input, or `none` on a lexing error.  The
patterns are dispatched on the first character (the start sets are disjoint);
for `-` and `/` the comment patterns (length ≥ 2) beat the single-character
punctuation tokens exactly when they match, which is the longest-match rule. -/
def lexStep : List Char → Option (StatementToken × Nat)
  | [] => none
  | c :: cs =>
    if c == ' ' then some (.Whitespace, takeWhileLen (fun x => x == ' ') (c :: cs))
    else if c == '\n' then some (.Newline, takeWhileLen (fun x => x == '\n') (c :: cs))
    else if c == '\t' then some (.Tab, takeWhileLen (fun x => x == '\t') (c :: cs))
    else if isWordChar c then some (.Word, takeWhileLen isWordChar (c :: cs))
    else if c == '\'' then (matchSconst (c :: cs)).map (fun n => (.Sconst, n))
    else if c == '-' then
      match matchLineComment (c :: cs) with
      | some n => some (.Comment, n)
      | none => some (.Ascii45, 1)
    else if c == '/' then
      match matchBlockComment (c :: cs) with
      | some n => some (.Comment, n)
      | none => some (.Ascii47, 1)
    else (punctTok c).map (fun t => (t, 1))

/-- A classifier token as delivered by the lexer loop: the `StatementToken`
kind, the exact text slice (`lexer.slice()`) and the half-open byte span
(`lexer.span()`). -/
structure LexTok where
  tok : StatementToken
  slice : List Char
  start : Nat
  stop : Nat
deriving Repr, DecidableEq

/-- The whole lexer run, fuelled (each step consumes at least one character,
so `fuel = length` suffices).  `none` models the logos error token, on which
`parse_statement` panics (statement.rs line 184). -/
def lexAux : Nat → Nat → List Char → Option (List LexTok)
  | _, _, [] => some []
  | 0, _, _ :: _ => none
  | fuel + 1, pos, c :: cs =>
    match lexStep (c :: cs) with
    | none => none
    | some (t, n) =>
      match lexAux fuel (pos + n) ((c :: cs).drop n) with
      | none => none
      | some rest => some (⟨t, (c :: cs).take n, pos, pos + n⟩ :: rest)

/-- The classifier lexer over a full statement text. -/
def lex (text : List Char) : Option (List LexTok) :=
  lexAux text.length 0 text

/-- In-order concatenation of the text slices of a classifier token list. -/
def concatSlices : List LexTok → List Char
  | [] => []
  | t :: ts => t.slice ++ concatSlices ts

/-! ## The Grammar Oracle's data (pg_query, external)

`pg_query::scan` yields fine-grained tokens with byte spans; `pg_query::parse`
yields AST nodes, each carrying a start position (via
`get_position_for_pg_query_node`) and a nesting depth.  Kinds are abstracted
to numeric identifiers: the concrete `SyntaxKind::from_pg_query_token` /
`from_pg_query_node` tables live outside the embedded file and are modelled
(from the spec's "syntax-kind-to-semantic-node mapping tables (assumed given
as a lookup function)") as injections into `SyntaxKind`. -/

/-- A fine-grained oracle token (`pg_query` `ScanToken`): half-open span
`start..stop` (Rust field `end`) and a token-kind identifier. -/
structure GrammarToken where
  start : Nat
  stop : Nat
  kind : Nat
deriving Repr, DecidableEq

/-- An oracle AST node as consumed by the reconciler: kind identifier, start
position (`get_position_for_pg_query_node`) and nesting depth. -/
structure AstNode where
  kind : Nat
  position : Nat
  depth : Nat
deriving Repr, DecidableEq

/-- Leaf/node kinds of the produced tree.  `coarse` is the
`StatementToken::syntax_kind` table (statement.rs lines 72-101, an injective
rename of each variant; its `_ => panic!` arm is unreachable because every
variant is matched).  `fineTok` and `nodeKind` model the
`SyntaxKind::from_pg_query_token` / `from_pg_query_node` lookup tables. -/
inductive SyntaxKind where
  | coarse : StatementToken → SyntaxKind
  | fineTok : Nat → SyntaxKind
  | nodeKind : Nat → SyntaxKind
deriving Repr, DecidableEq

/-- `StatementToken::syntax_kind` (statement.rs lines 72-101). -/
def StatementToken.syntax_kind (t : StatementToken) : SyntaxKind :=
  SyntaxKind.coarse t

/-! ## The Tree Builder

Modelled from the spec: the `Parser` struct's tree-building methods
(`start_node`, `token`, `error`, `close_until_depth`, `consume_token_buffer`)
are in `parser.rs`, which is not part of the embedded source; §4.4 of the
spec specifies them as a state machine over a stack of `(depth, node)` frames
with an implicit always-present root level: `open(kind, depth)` closes frames
of depth ≥ the given depth (attaching each closed frame as a child of the
new top, or at the root level when the stack empties) and pushes a fresh
frame; `append_leaf` attaches to the top frame or to the root level;
`close_to(depth)` closes frames until the top frame's depth is < `depth`;
`record_error` appends a diagnostic.  Token buffering is transparent. -/

/-- An element of the concrete syntax tree: a leaf carrying its exact text
slice, or an internal node with ordered children. -/
inductive Element where
  | leaf (kind : SyntaxKind) (text : List Char) : Element
  | node (kind : SyntaxKind) (children : List Element) : Element

mutual

/-- In-order concatenation of the leaf text slices of one element. -/
def elemText : Element → List Char
  | .leaf _ t => t
  | .node _ cs => elemsText cs

/-- In-order concatenation of the leaf text slices of a forest. -/
def elemsText : List Element → List Char
  | [] => []
  | e :: es => elemText e ++ elemsText es

end

/-- `true` exactly on internal nodes. -/
def Element.isNodeB : Element → Bool
  | .node _ _ => true
  | .leaf _ _ => false

/-- `true` exactly on leaves. -/
def Element.isLeafB : Element → Bool
  | .leaf _ _ => true
  | .node _ _ => false

/-- A recoverable diagnostic: oracle error message plus a span. -/
structure Diag where
  message : String
  span : Nat × Nat
deriving Repr, DecidableEq

/-- An in-progress tree node: its reported depth, kind and ordered children
accumulated so far. -/
structure Frame where
  depth : Nat
  kind : SyntaxKind
  children : List Element

/-- Tree Builder state: the frame stack (head = innermost open node), the
root-level children and the diagnostics list. -/
structure Builder where
  stack : List Frame
  roots : List Element
  diags : List Diag

/-- Close frames of depth ≥ `d`, carrying the element `el` produced by the
frame just closed downward: `el` is attached to the first surviving frame, or
to the root level if every frame closes. -/
def closeFramesP (d : Nat) : Element → List Frame → List Element →
    List Frame × List Element
  | el, [], roots => ([], roots ++ [el])
  | el, g :: gs, roots =>
    if d ≤ g.depth then
      closeFramesP d (Element.node g.kind (g.children ++ [el])) gs roots
    else ({ g with children := g.children ++ [el] } :: gs, roots)

/-- Close every frame of depth ≥ `d` (innermost first), returning the
surviving stack and the updated root-level children. -/
def closeFrames (d : Nat) : List Frame → List Element → List Frame × List Element
  | [], roots => ([], roots)
  | f :: rest, roots =>
    if d ≤ f.depth then closeFramesP d (Element.node f.kind f.children) rest roots
    else (f :: rest, roots)

/-- `Parser::start_node`: close frames of depth ≥ `d`, then open a fresh
frame of depth `d` and kind `k`. -/
def Builder.openNode (b : Builder) (k : SyntaxKind) (d : Nat) : Builder :=
  let p := closeFrames d b.stack b.roots
  { b with stack := ⟨d, k, []⟩ :: p.1, roots := p.2 }

/-- `Parser::token`: append a leaf to the innermost open node, or at the
root level when no node is open. -/
def Builder.token (b : Builder) (k : SyntaxKind) (t : List Char) : Builder :=
  match b.stack with
  | [] => { b with roots := b.roots ++ [Element.leaf k t] }
  | f :: rest => { b with stack := { f with children := f.children ++ [Element.leaf k t] } :: rest }

/-- `Parser::error`: record a diagnostic; the stack is untouched. -/
def Builder.error (b : Builder) (msg : String) (span : Nat × Nat) : Builder :=
  { b with diags := b.diags ++ [⟨msg, span⟩] }

/-! ## `Parser::parse_statement` (statement.rs lines 105-191) -/

/-- Truncation to unsigned 32-bit range (`as u32`, wrapping `u32` addition). -/
def u32 (n : Nat) : Nat := n % 4294967296

/-- The whole-statement range computed at statement.rs lines 107-110:
`TextRange::new(offset, offset + text.len() as u32)` in `u32` arithmetic. -/
def statementRange (offset len : Nat) : Nat × Nat :=
  (u32 offset, u32 (u32 offset + u32 len))

/-- Stable insertion of a node into a position-sorted list (the node goes
before the first strictly-later-positioned entry, after equal positions). -/
def insertByPos (n : AstNode) : List AstNode → List AstNode
  | [] => [n]
  | m :: ms =>
    if n.position ≤ m.position then n :: m :: ms else m :: insertByPos n ms

/-- The reconciler's node sort (statement.rs lines 129-131): a stable sort
of the oracle AST nodes by `get_position_for_pg_query_node`. -/
def sortNodes : List AstNode → List AstNode
  | [] => []
  | n :: ns => insertByPos n (sortNodes ns)

/-- `Range::contains` on the half-open span `[s, e)`. -/
def spanContains (s e x : Nat) : Bool :=
  decide (s ≤ x) && decide (x < e)

/-- The mutable state threaded through the token loop: the builder plus the
two peekable oracle cursors. -/
structure LoopState where
  builder : Builder
  nodes : List AstNode
  gtoks : List GrammarToken

/-- The node-opening phase (statement.rs lines 156-165): while the next
pending AstNode's position falls inside the current token's span, pop it and
open it at its reported depth. -/
def openPhase : List AstNode → Builder → Nat → Nat → List AstNode × Builder
  | [], b, _, _ => ([], b)
  | n :: rest, b, s, e =>
    if spanContains s e n.position then
      openPhase rest (b.openNode (SyntaxKind.nodeKind n.kind) n.depth) s e
    else (n :: rest, b)

/-- The body of the token loop (statement.rs lines 150-186) for one
successfully classified token: run the node-opening phase, then resolve the
leaf kind — the next pending GrammarToken is consumed exactly when its span
starts or ends inside the current token's span, in which case its
fine-grained kind labels the leaf; otherwise the coarse kind is used.  The
leaf text is always `lexer.slice()`. -/
def processToken (st : LoopState) (t : LexTok) : LoopState :=
  let p := openPhase st.nodes st.builder t.start t.stop
  match st.gtoks with
  | g :: rest =>
    if spanContains t.start t.stop g.start || spanContains t.start t.stop g.stop then
      ⟨p.2.token (SyntaxKind.fineTok g.kind) t.slice, p.1, rest⟩
    else
      ⟨p.2.token t.tok.syntax_kind t.slice, p.1, g :: rest⟩
  | [] => ⟨p.2.token t.tok.syntax_kind t.slice, p.1, []⟩

/-- The nodes the loop consumes, for a given `pg_query::parse` outcome. -/
def exNodes : Except String (List AstNode) → List AstNode
  | .ok ns => ns
  | .error _ => []

/-- The diagnostics recorded for one oracle call outcome: exactly one per
failing call, carrying the oracle's message and the statement span. -/
def errDiags {α : Type} (r : Except String α) (span : Nat × Nat) : List Diag :=
  match r with
  | .ok _ => []
  | .error e => [⟨e, span⟩]

/-- Everything `parse_statement` does before the token loop (statement.rs
lines 106-148): compute the statement range, record one diagnostic per
failing oracle call, sort the AST nodes by position, and — when at least one
AstNode exists — open the first sorted node before consuming any classifier
token. -/
def preLoopState (text : List Char) (atOffset : Option Nat)
    (scanRes : Except String (List GrammarToken))
    (parseRes : Except String (List AstNode)) : LoopState :=
  let range := statementRange (atOffset.getD 0) text.length
  let b0 : Builder := ⟨[], [], []⟩
  let gp : List GrammarToken × Builder :=
    match scanRes with
    | .ok ts => (ts, b0)
    | .error e => ([], b0.error e range)
  let np : List AstNode × Builder :=
    match parseRes with
    | .ok ns => (sortNodes ns, gp.2)
    | .error e => ([], gp.2.error e range)
  match np.1 with
  | [] => ⟨np.2, [], gp.1⟩
  | n :: rest => ⟨np.2.openNode (SyntaxKind.nodeKind n.kind) n.depth, rest, gp.1⟩

/-- The final result: the tree's root-level children plus the diagnostics. -/
structure ParseResult where
  tree : List Element
  diags : List Diag

/-- `Parser::parse_statement` (statement.rs lines 105-191).  The two oracle
calls are passed in as explicit results.  `none` models the `panic!` on a
classifier lexing error (line 184); otherwise the classifier stream drives
the reconciliation loop and the builder is finalized by
`close_until_depth(1)`. -/
def parse_statement (text : List Char) (atOffset : Option Nat)
    (scanRes : Except String (List GrammarToken))
    (parseRes : Except String (List AstNode)) : Option ParseResult :=
  match lex text with
  | none => none
  | some toks =>
    let st := List.foldl processToken (preLoopState text atOffset scanRes parseRes) toks
    let p := closeFrames 1 st.builder.stack st.builder.roots
    some ⟨p.2, st.builder.diags⟩

/-! ## Lexer lemmas -/

theorem takeWhileLen_head (p : Char → Bool) (c : Char) (cs : List Char)
    (h : p c = true) : takeWhileLen p (c :: cs) = takeWhileLen p cs + 1 := by
  simp [takeWhileLen, h]

theorem matchSconst_pos {cs : List Char} {n : Nat}
    (h : matchSconst cs = some n) : 1 <= n := by
  match cs with
  | [] => simp [matchSconst] at h
  | c :: rest =>
    unfold matchSconst at h
    split at h
    next =>
      split at h
      · simp at h
      · split at h
        · injection h with h
          omega
        · simp at h
    next => simp at h

theorem matchLineComment_pos {cs : List Char} {n : Nat}
    (h : matchLineComment cs = some n) : 1 <= n := by
  unfold matchLineComment at h
  split at h
  · injection h with h
    omega
  · simp at h

theorem matchBlockComment_pos {cs : List Char} {n : Nat}
    (h : matchBlockComment cs = some n) : 1 <= n := by
  unfold matchBlockComment at h
  split at h
  · rcases Option.map_eq_some'.mp h with ⟨i, _, hi⟩
    omega
  · simp at h

/-- Unfolding lemma: one lexer step on a nonempty input. -/
theorem lexStep_cons (c : Char) (cs : List Char) :
    lexStep (c :: cs) =
      (if c == ' ' then some (.Whitespace, takeWhileLen (fun x => x == ' ') (c :: cs))
      else if c == '\n' then some (.Newline, takeWhileLen (fun x => x == '\n') (c :: cs))
      else if c == '\t' then some (.Tab, takeWhileLen (fun x => x == '\t') (c :: cs))
      else if isWordChar c then some (.Word, takeWhileLen isWordChar (c :: cs))
      else if c == '\'' then (matchSconst (c :: cs)).map (fun n => (.Sconst, n))
      else if c == '-' then
        match matchLineComment (c :: cs) with
        | some n => some (.Comment, n)
        | none => some (.Ascii45, 1)
      else if c == '/' then
        match matchBlockComment (c :: cs) with
        | some n => some (.Comment, n)
        | none => some (.Ascii47, 1)
      else (punctTok c).map (fun t => (t, 1))) := rfl

/-- Every successful maximal-munch step consumes at least one character. -/
theorem lexStep_pos {cs : List Char} {t : StatementToken} {n : Nat}
    (h : lexStep cs = some (t, n)) : 1 <= n := by
  match cs with
  | [] => simp [lexStep] at h
  | c :: rest =>
    rw [lexStep_cons] at h
    by_cases h1 : (c == ' ') = true
    · rw [if_pos h1, takeWhileLen_head (fun x => x == ' ') c rest h1] at h
      injection h with h
      injection h with h1 h2
      omega
    · rw [if_neg h1] at h
      by_cases h2 : (c == '\n') = true
      · rw [if_pos h2, takeWhileLen_head (fun x => x == '\n') c rest h2] at h
        injection h with h
        injection h with ha hb
        omega
      · rw [if_neg h2] at h
        by_cases h3 : (c == '\t') = true
        · rw [if_pos h3, takeWhileLen_head (fun x => x == '\t') c rest h3] at h
          injection h with h
          injection h with ha hb
          omega
        · rw [if_neg h3] at h
          by_cases h4 : isWordChar c = true
          · rw [if_pos h4, takeWhileLen_head isWordChar c rest h4] at h
            injection h with h
            injection h with ha hb
            omega
          · rw [if_neg h4] at h
            by_cases h5 : (c == '\'') = true
            · rw [if_pos h5] at h
              rcases Option.map_eq_some'.mp h with ⟨m, hm, he⟩
              injection he with ha hb
              exact hb ▸ matchSconst_pos hm
            · rw [if_neg h5] at h
              by_cases h6 : (c == '-') = true
              · rw [if_pos h6] at h
                cases hm : matchLineComment (c :: rest) with
                | some m =>
                  rw [hm] at h
                  injection h with h
                  injection h with ha hb
                  exact hb ▸ matchLineComment_pos hm
                | none =>
                  rw [hm] at h
                  injection h with h
                  injection h with ha hb
                  omega
              · rw [if_neg h6] at h
                by_cases h7 : (c == '/') = true
                · rw [if_pos h7] at h
                  cases hm : matchBlockComment (c :: rest) with
                  | some m =>
                    rw [hm] at h
                    injection h with h
                    injection h with ha hb
                    exact hb ▸ matchBlockComment_pos hm
                  | none =>
                    rw [hm] at h
                    injection h with h
                    injection h with ha hb
                    omega
                · rw [if_neg h7] at h
                  rcases Option.map_eq_some'.mp h with ⟨t', _, he⟩
                  injection he with ha hb
                  omega

/-- Soundness of the lexer run: the produced slices concatenate, in order,
to exactly the consumed input. -/
theorem lexAux_sound : ∀ (fuel pos : Nat) (cs : List Char) (toks : List LexTok),
    lexAux fuel pos cs = some toks → concatSlices toks = cs := by
  intro fuel
  induction fuel with
  | zero =>
    intro pos cs toks h
    match cs with
    | [] =>
      unfold lexAux at h
      injection h with h
      simp [← h, concatSlices]
    | c :: rest => simp [lexAux] at h
  | succ fuel ih =>
    intro pos cs toks h
    match cs with
    | [] =>
      unfold lexAux at h
      injection h with h
      simp [← h, concatSlices]
    | c :: rest =>
      unfold lexAux at h
      split at h
      · simp at h
      next t n hs =>
        split at h
        · simp at h
        next rest' hr =>
          injection h with h
          rw [← h, concatSlices, ih _ _ _ hr]
          exact List.take_append_drop n (c :: rest)

/-- Losslessness of the classifier: whenever the lexer completes, the token
slices reconstruct the input text exactly. -/
theorem lex_sound {text : List Char} {toks : List LexTok}
    (h : lex text = some toks) : concatSlices toks = text :=
  lexAux_sound text.length 0 text toks h

/-- The supported single-character alphabet minus the single quote: the 19
ASCII punctuation characters, word characters, space, newline and tab. -/
def SupportedNoQuote (c : Char) : Bool :=
  (punctTok c).isSome || isWordChar c || c == ' ' || c == '\n' || c == '\t'

/-- At a head character of the quote-free supported alphabet, the
maximal-munch step always succeeds. -/
theorem lexStep_supported {c : Char} (cs : List Char)
    (h : SupportedNoQuote c = true) : (lexStep (c :: cs)).isSome = true := by
  rw [lexStep_cons]
  by_cases h1 : (c == ' ') = true
  · simp [h1]
  · by_cases h2 : (c == '\n') = true
    · simp [h1, h2]
    · by_cases h3 : (c == '\t') = true
      · simp [h1, h2, h3]
      · by_cases h4 : isWordChar c = true
        · simp [h1, h2, h3, h4]
        · by_cases h5 : (c == '\'') = true
          · exfalso
            have hc : c = '\'' := by simpa using h5
            subst hc
            revert h
            decide
          · by_cases h6 : (c == '-') = true
            · cases hm : matchLineComment (c :: cs) <;>
                simp [h1, h2, h3, h4, h5, h6, hm]
            · by_cases h7 : (c == '/') = true
              · cases hm : matchBlockComment (c :: cs) <;>
                  simp [h1, h2, h3, h4, h5, h6, h7, hm]
              · have hp : (punctTok c).isSome = true := by
                  unfold SupportedNoQuote at h
                  simp only [Bool.or_eq_true] at h
                  rcases h with ((((hp | hw) | hs) | hn) | ht)
                  · exact hp
                  · exact absurd hw h4
                  · exact absurd hs h1
                  · exact absurd hn h2
                  · exact absurd ht h3
                simp [h1, h2, h3, h4, h5, h6, h7, hp]

/-- Totality of the lexer over the quote-free supported alphabet. -/
theorem lexAux_total : ∀ (fuel : Nat) (cs : List Char) (pos : Nat),
    cs.length <= fuel → (∀ c ∈ cs, SupportedNoQuote c = true) →
    (lexAux fuel pos cs).isSome = true := by
  intro fuel
  induction fuel with
  | zero =>
    intro cs pos hlen _
    match cs with
    | [] => simp [lexAux]
    | c :: rest => simp at hlen
  | succ fuel ih =>
    intro cs pos hlen hsup
    match cs with
    | [] => simp [lexAux]
    | c :: rest =>
      have hs := lexStep_supported rest (hsup c (List.mem_cons_self c rest))
      rcases Option.isSome_iff_exists.mp hs with ⟨⟨t, n⟩, ht⟩
      have hn := lexStep_pos ht
      have hrec : (lexAux fuel (pos + n) ((c :: rest).drop n)).isSome = true := by
        apply ih
        · rw [List.length_drop]
          simp only [List.length_cons] at hlen ⊢
          omega
        · intro x hx
          exact hsup x (List.drop_subset n (c :: rest) hx)
      rcases Option.isSome_iff_exists.mp hrec with ⟨l, hl⟩
      unfold lexAux
      rw [ht]
      dsimp only
      rw [hl]
      rfl

/-! ## Tree Builder lemmas -/

/-- In-order text of the open frame stack (head = innermost, whose children
come last). -/
def stackText : List Frame → List Char
  | [] => []
  | f :: rest => stackText rest ++ elemsText f.children

/-- In-order concatenation of all leaf text accumulated in the builder. -/
def builderText (b : Builder) : List Char :=
  elemsText b.roots ++ stackText b.stack

theorem elemsText_append (xs ys : List Element) :
    elemsText (xs ++ ys) = elemsText xs ++ elemsText ys := by
  induction xs with
  | nil => simp [elemsText]
  | cons e es ih => simp [elemsText, ih]

theorem closeFramesP_text (d : Nat) : ∀ (st : List Frame) (el : Element)
    (roots : List Element),
    elemsText (closeFramesP d el st roots).2 ++ stackText (closeFramesP d el st roots).1
      = elemsText roots ++ (stackText st ++ elemText el) := by
  intro st
  induction st with
  | nil =>
    intro el roots
    simp [closeFramesP, stackText, elemsText_append, elemsText, elemText]
  | cons g gs ih =>
    intro el roots
    unfold closeFramesP
    by_cases hd : d ≤ g.depth
    · rw [if_pos hd, ih]
      simp [elemText, elemsText_append, stackText, elemsText]
    · rw [if_neg hd]
      simp [stackText, elemsText_append, elemsText]

theorem closeFrames_text (d : Nat) (st : List Frame) (roots : List Element) :
    elemsText (closeFrames d st roots).2 ++ stackText (closeFrames d st roots).1
      = elemsText roots ++ stackText st := by
  match st with
  | [] => simp [closeFrames]
  | f :: rest =>
    unfold closeFrames
    dsimp only
    by_cases hd : d ≤ f.depth
    · rw [if_pos hd, closeFramesP_text]
      simp [elemText, stackText]
    · rw [if_neg hd]

theorem openNode_text (b : Builder) (k : SyntaxKind) (d : Nat) :
    builderText (b.openNode k d) = builderText b := by
  unfold Builder.openNode builderText
  simp only [stackText, elemsText, List.append_nil]
  exact closeFrames_text d b.stack b.roots

theorem token_text (b : Builder) (k : SyntaxKind) (t : List Char) :
    builderText (b.token k t) = builderText b ++ t := by
  obtain ⟨st, roots, diags⟩ := b
  match st with
  | [] =>
    simp [Builder.token, builderText, stackText, elemsText_append, elemsText, elemText]
  | f :: rest =>
    simp [Builder.token, builderText, stackText, elemsText_append, elemsText, elemText,
      List.append_assoc]

theorem error_text (b : Builder) (m : String) (s : Nat × Nat) :
    builderText (b.error m s) = builderText b := rfl

theorem openPhase_text : ∀ (nodes : List AstNode) (b : Builder) (s e : Nat),
    builderText (openPhase nodes b s e).2 = builderText b := by
  intro nodes
  induction nodes with
  | nil => intro b s e; rfl
  | cons n rest ih =>
    intro b s e
    unfold openPhase
    by_cases hc : spanContains s e n.position = true
    · rw [if_pos hc, ih, openNode_text]
    · rw [if_neg hc]

theorem processToken_text (st : LoopState) (t : LexTok) :
    builderText (processToken st t).builder = builderText st.builder ++ t.slice := by
  unfold processToken
  match hg : st.gtoks with
  | [] => simp only [token_text, openPhase_text]
  | g :: rest =>
    dsimp only
    by_cases hc : (spanContains t.start t.stop g.start
        || spanContains t.start t.stop g.stop) = true
    · rw [if_pos hc]
      simp only [token_text, openPhase_text]
    · rw [if_neg hc]
      simp only [token_text, openPhase_text]

theorem foldl_text : ∀ (toks : List LexTok) (st : LoopState),
    builderText (List.foldl processToken st toks).builder
      = builderText st.builder ++ concatSlices toks := by
  intro toks
  induction toks with
  | nil => intro st; simp [concatSlices]
  | cons t ts ih =>
    intro st
    rw [List.foldl_cons, ih, processToken_text, concatSlices, List.append_assoc]

/-! ## Frame-depth bookkeeping: `close_until_depth(1)` flushes the stack
whenever every open frame's depth is at least 1 (which the spec's AstNode
invariant `depth ≥ 1` guarantees). -/

theorem closeFramesP_depths (d : Nat) (p : Nat → Prop) : ∀ (st : List Frame)
    (el : Element) (roots : List Element), (∀ f ∈ st, p f.depth) →
    ∀ f ∈ (closeFramesP d el st roots).1, p f.depth := by
  intro st
  induction st with
  | nil => intro el roots _ f hf; simp [closeFramesP] at hf
  | cons g gs ih =>
    intro el roots h f hf
    unfold closeFramesP at hf
    by_cases hd : d ≤ g.depth
    · rw [if_pos hd] at hf
      exact ih _ roots (fun x hx => h x (List.mem_cons_of_mem g hx)) f hf
    · rw [if_neg hd] at hf
      rcases List.mem_cons.mp hf with he | hm
      · rw [he]
        exact h g (List.mem_cons_self g gs)
      · exact h _ (List.mem_cons_of_mem g hm)

theorem closeFrames_depths (d : Nat) (p : Nat → Prop) (st : List Frame)
    (roots : List Element) (h : ∀ f ∈ st, p f.depth) :
    ∀ f ∈ (closeFrames d st roots).1, p f.depth := by
  match st with
  | [] => intro f hf; simp [closeFrames] at hf
  | f0 :: rest =>
    intro f hf
    unfold closeFrames at hf
    dsimp only at hf
    by_cases hd : d ≤ f0.depth
    · rw [if_pos hd] at hf
      exact closeFramesP_depths d p rest _ roots
        (fun x hx => h x (List.mem_cons_of_mem f0 hx)) f hf
    · rw [if_neg hd] at hf
      exact h f hf

theorem closeFramesP_nil : ∀ (st : List Frame) (el : Element)
    (roots : List Element), (∀ f ∈ st, 1 ≤ f.depth) →
    (closeFramesP 1 el st roots).1 = [] := by
  intro st
  induction st with
  | nil => intro el roots _; rfl
  | cons g gs ih =>
    intro el roots h
    unfold closeFramesP
    rw [if_pos (h g (List.mem_cons_self g gs))]
    exact ih _ roots (fun x hx => h x (List.mem_cons_of_mem g hx))

theorem closeFrames_nil (st : List Frame) (roots : List Element)
    (h : ∀ f ∈ st, 1 ≤ f.depth) : (closeFrames 1 st roots).1 = [] := by
  match st with
  | [] => rfl
  | f :: rest =>
    unfold closeFrames
    dsimp only
    rw [if_pos (h f (List.mem_cons_self f rest))]
    exact closeFramesP_nil rest _ roots (fun x hx => h x (List.mem_cons_of_mem f hx))

theorem openNode_depths (b : Builder) (k : SyntaxKind) (d : Nat) (p : Nat → Prop)
    (hb : ∀ f ∈ b.stack, p f.depth) (hd : p d) :
    ∀ f ∈ (b.openNode k d).stack, p f.depth := by
  intro f hf
  unfold Builder.openNode at hf
  simp only at hf
  rcases List.mem_cons.mp hf with he | hm
  · rw [he]
    exact hd
  · exact closeFrames_depths d p b.stack b.roots hb f hm

theorem token_depths (b : Builder) (k : SyntaxKind) (t : List Char) (p : Nat → Prop)
    (hb : ∀ f ∈ b.stack, p f.depth) :
    ∀ f ∈ (b.token k t).stack, p f.depth := by
  obtain ⟨st, roots, diags⟩ := b
  match st with
  | [] => intro f hf; simp [Builder.token] at hf
  | f0 :: rest =>
    intro f hf
    simp only [Builder.token] at hf
    rcases List.mem_cons.mp hf with he | hm
    · rw [he]
      exact hb f0 (List.mem_cons_self f0 rest)
    · exact hb f (List.mem_cons_of_mem f0 hm)

/-! ## Sorting lemmas -/

theorem insertByPos_perm (n : AstNode) : ∀ (l : List AstNode),
    List.Perm (insertByPos n l) (n :: l) := by
  intro l
  induction l with
  | nil => rfl
  | cons m ms ih =>
    unfold insertByPos
    by_cases hc : n.position ≤ m.position
    · rw [if_pos hc]
    · rw [if_neg hc]
      exact List.Perm.trans (ih.cons m) (List.Perm.swap n m ms)

theorem sortNodes_perm : ∀ (l : List AstNode), List.Perm (sortNodes l) l := by
  intro l
  induction l with
  | nil => rfl
  | cons n ns ih =>
    exact List.Perm.trans (insertByPos_perm n (sortNodes ns)) (ih.cons n)

theorem sortNodes_mem {m : AstNode} {l : List AstNode} (h : m ∈ sortNodes l) :
    m ∈ l :=
  (sortNodes_perm l).mem_iff.mp h

theorem insertByPos_mem {x n : AstNode} {l : List AstNode}
    (h : x ∈ insertByPos n l) : x = n ∨ x ∈ l := by
  have := (insertByPos_perm n l).mem_iff.mp h
  simpa using this

theorem insertByPos_pairwise (n : AstNode) : ∀ (l : List AstNode),
    List.Pairwise (fun a b => a.position ≤ b.position) l →
    List.Pairwise (fun a b => a.position ≤ b.position) (insertByPos n l) := by
  intro l
  induction l with
  | nil => intro _; simp [insertByPos]
  | cons m ms ih =>
    intro h
    rcases List.pairwise_cons.mp h with ⟨hm, hms⟩
    unfold insertByPos
    by_cases hc : n.position ≤ m.position
    · rw [if_pos hc]
      refine List.pairwise_cons.mpr ⟨?_, h⟩
      intro x hx
      rcases List.mem_cons.mp hx with he | hmem
      · rw [he]
        exact hc
      · exact le_trans hc (hm x hmem)
    · rw [if_neg hc]
      refine List.pairwise_cons.mpr ⟨?_, ih hms⟩
      intro x hx
      rcases insertByPos_mem hx with he | hmem
      · rw [he]
        omega
      · exact hm x hmem

/-- The reconciler's sort really sorts by position. -/
theorem sortNodes_sorted : ∀ (l : List AstNode),
    List.Pairwise (fun a b => a.position ≤ b.position) (sortNodes l) := by
  intro l
  induction l with
  | nil => simp [sortNodes]
  | cons n ns ih => exact insertByPos_pairwise n (sortNodes ns) ih

/-! ## Characterization of the node-opening phase -/

/-- The node-opening phase consumes exactly the maximal prefix of pending
nodes whose positions fall inside the current span, opening each in order at
its own reported depth; the first out-of-span node (and everything after it)
is left pending. -/
theorem openPhase_eq : ∀ (nodes : List AstNode) (b : Builder) (s e : Nat),
    openPhase nodes b s e =
      (nodes.dropWhile (fun n => spanContains s e n.position),
       List.foldl (fun b' n => b'.openNode (SyntaxKind.nodeKind n.kind) n.depth) b
         (nodes.takeWhile (fun n => spanContains s e n.position))) := by
  intro nodes
  induction nodes with
  | nil => intro b s e; rfl
  | cons n rest ih =>
    intro b s e
    unfold openPhase
    by_cases hc : spanContains s e n.position = true
    · rw [if_pos hc, ih]
      simp [List.dropWhile_cons, List.takeWhile_cons, hc]
    · rw [if_neg hc]
      simp [List.dropWhile_cons, List.takeWhile_cons, hc]

theorem openPhase_nodes_subset {nodes : List AstNode} {b : Builder} {s e : Nat}
    {x : AstNode} (h : x ∈ (openPhase nodes b s e).1) : x ∈ nodes := by
  rw [openPhase_eq] at h
  exact List.dropWhile_subset _ h

theorem openPhase_depths : ∀ (nodes : List AstNode) (b : Builder) (s e : Nat),
    (∀ f ∈ b.stack, 1 ≤ f.depth) → (∀ n ∈ nodes, 1 ≤ n.depth) →
    ∀ f ∈ (openPhase nodes b s e).2.stack, 1 ≤ f.depth := by
  intro nodes
  induction nodes with
  | nil => intro b s e hb _ f hf; exact hb f hf
  | cons n rest ih =>
    intro b s e hb hn f hf
    unfold openPhase at hf
    by_cases hc : spanContains s e n.position = true
    · rw [if_pos hc] at hf
      refine ih _ s e ?_ (fun x hx => hn x (List.mem_cons_of_mem n hx)) f hf
      exact openNode_depths b _ n.depth _ hb (hn n (List.mem_cons_self n rest))
    · rw [if_neg hc] at hf
      exact hb f hf

/-! ## The loop invariant giving `close_until_depth(1)` a clean sweep -/

/-- Invariant: all open frames and all still-pending nodes sit at depth ≥ 1
(the spec's AstNode invariant). -/
def DepthInv (st : LoopState) : Prop :=
  (∀ f ∈ st.builder.stack, 1 ≤ f.depth) ∧ (∀ n ∈ st.nodes, 1 ≤ n.depth)

theorem processToken_depthInv {st : LoopState} (t : LexTok) (h : DepthInv st) :
    DepthInv (processToken st t) := by
  rcases h with ⟨hb, hn⟩
  have hstack : ∀ f ∈ (openPhase st.nodes st.builder t.start t.stop).2.stack,
      1 ≤ f.depth := openPhase_depths st.nodes st.builder t.start t.stop hb hn
  have hnodes : ∀ n ∈ (openPhase st.nodes st.builder t.start t.stop).1,
      1 ≤ n.depth := fun n hm => hn n (openPhase_nodes_subset hm)
  unfold processToken
  match st.gtoks with
  | [] =>
    exact ⟨token_depths _ _ _ _ hstack, hnodes⟩
  | g :: rest =>
    dsimp only
    by_cases hc : (spanContains t.start t.stop g.start
        || spanContains t.start t.stop g.stop) = true
    · rw [if_pos hc]
      exact ⟨token_depths _ _ _ _ hstack, hnodes⟩
    · rw [if_neg hc]
      exact ⟨token_depths _ _ _ _ hstack, hnodes⟩

theorem foldl_depthInv : ∀ (toks : List LexTok) (st : LoopState),
    DepthInv st → DepthInv (List.foldl processToken st toks) := by
  intro toks
  induction toks with
  | nil => intro st h; exact h
  | cons t ts ih =>
    intro st h
    rw [List.foldl_cons]
    exact ih _ (processToken_depthInv t h)

/-! ## Diagnostics bookkeeping: the loop and the finalization never touch
the diagnostics recorded before the loop. -/

theorem openNode_diags (b : Builder) (k : SyntaxKind) (d : Nat) :
    (b.openNode k d).diags = b.diags := rfl

theorem token_diags (b : Builder) (k : SyntaxKind) (t : List Char) :
    (b.token k t).diags = b.diags := by
  obtain ⟨st, roots, diags⟩ := b
  match st with
  | [] => rfl
  | f :: rest => rfl

theorem openPhase_diags : ∀ (nodes : List AstNode) (b : Builder) (s e : Nat),
    (openPhase nodes b s e).2.diags = b.diags := by
  intro nodes
  induction nodes with
  | nil => intro b s e; rfl
  | cons n rest ih =>
    intro b s e
    unfold openPhase
    by_cases hc : spanContains s e n.position = true
    · rw [if_pos hc, ih, openNode_diags]
    · rw [if_neg hc]

theorem processToken_diags (st : LoopState) (t : LexTok) :
    (processToken st t).builder.diags = st.builder.diags := by
  unfold processToken
  match st.gtoks with
  | [] => rw [token_diags, openPhase_diags]
  | g :: rest =>
    dsimp only
    by_cases hc : (spanContains t.start t.stop g.start
        || spanContains t.start t.stop g.stop) = true
    · rw [if_pos hc]
      dsimp only
      rw [token_diags, openPhase_diags]
    · rw [if_neg hc]
      dsimp only
      rw [token_diags, openPhase_diags]

theorem foldl_diags : ∀ (toks : List LexTok) (st : LoopState),
    (List.foldl processToken st toks).builder.diags = st.builder.diags := by
  intro toks
  induction toks with
  | nil => intro st; rfl
  | cons t ts ih =>
    intro st
    rw [List.foldl_cons, ih, processToken_diags]

/-! ## Root-level elements: growth discipline -/

theorem closeFramesP_roots : ∀ (st : List Frame) (d : Nat) (el : Element)
    (roots : List Element), Element.isNodeB el = true →
    (∀ x ∈ roots, Element.isNodeB x = true) →
    ∀ x ∈ (closeFramesP d el st roots).2, Element.isNodeB x = true := by
  intro st
  induction st with
  | nil =>
    intro d el roots hel hroots x hx
    unfold closeFramesP at hx
    rcases List.mem_append.mp hx with hm | hm
    · exact hroots x hm
    · rw [List.mem_singleton.mp hm]
      exact hel
  | cons g gs ih =>
    intro d el roots hel hroots x hx
    unfold closeFramesP at hx
    by_cases hd : d ≤ g.depth
    · rw [if_pos hd] at hx
      exact ih d (Element.node g.kind (g.children ++ [el])) roots rfl hroots x hx
    · rw [if_neg hd] at hx
      exact hroots x hx

theorem closeFrames_roots (st : List Frame) (d : Nat) (roots : List Element)
    (hroots : ∀ x ∈ roots, Element.isNodeB x = true) :
    ∀ x ∈ (closeFrames d st roots).2, Element.isNodeB x = true := by
  match st with
  | [] => intro x hx; exact hroots x hx
  | f :: rest =>
    intro x hx
    unfold closeFrames at hx
    dsimp only at hx
    by_cases hd : d ≤ f.depth
    · rw [if_pos hd] at hx
      exact closeFramesP_roots rest d (Element.node f.kind f.children) roots rfl hroots x hx
    · rw [if_neg hd] at hx
      exact hroots x hx

theorem openNode_roots (b : Builder) (k : SyntaxKind) (d : Nat)
    (hroots : ∀ x ∈ b.roots, Element.isNodeB x = true) :
    ∀ x ∈ (b.openNode k d).roots, Element.isNodeB x = true := by
  intro x hx
  exact closeFrames_roots b.stack d b.roots hroots x hx

theorem openNode_stack_ne (b : Builder) (k : SyntaxKind) (d : Nat) :
    (b.openNode k d).stack ≠ [] := by
  unfold Builder.openNode
  simp

theorem token_stack_ne (b : Builder) (k : SyntaxKind) (t : List Char)
    (h : b.stack ≠ []) : (b.token k t).stack ≠ [] := by
  obtain ⟨st, roots, diags⟩ := b
  match st with
  | [] => exact absurd rfl h
  | f :: rest => simp [Builder.token]

theorem token_roots (b : Builder) (k : SyntaxKind) (t : List Char)
    (h : b.stack ≠ []) : (b.token k t).roots = b.roots := by
  obtain ⟨st, roots, diags⟩ := b
  match st with
  | [] => exact absurd rfl h
  | f :: rest => rfl

/-- Invariant for C7: some node is always open, and the root level holds
only internal nodes. -/
def EncInv (st : LoopState) : Prop :=
  st.builder.stack ≠ [] ∧ ∀ x ∈ st.builder.roots, Element.isNodeB x = true

theorem openPhase_enc : ∀ (nodes : List AstNode) (b : Builder) (s e : Nat),
    b.stack ≠ [] → (∀ x ∈ b.roots, Element.isNodeB x = true) →
    (openPhase nodes b s e).2.stack ≠ [] ∧
      ∀ x ∈ (openPhase nodes b s e).2.roots, Element.isNodeB x = true := by
  intro nodes
  induction nodes with
  | nil => intro b s e hne hroots; exact ⟨hne, hroots⟩
  | cons n rest ih =>
    intro b s e hne hroots
    unfold openPhase
    by_cases hc : spanContains s e n.position = true
    · rw [if_pos hc]
      exact ih _ s e (openNode_stack_ne b _ n.depth) (openNode_roots b _ n.depth hroots)
    · rw [if_neg hc]
      exact ⟨hne, hroots⟩

theorem processToken_enc {st : LoopState} (t : LexTok) (h : EncInv st) :
    EncInv (processToken st t) := by
  rcases h with ⟨hne, hroots⟩
  rcases openPhase_enc st.nodes st.builder t.start t.stop hne hroots with ⟨hne2, hroots2⟩
  unfold processToken
  match st.gtoks with
  | [] =>
    refine ⟨token_stack_ne _ _ _ hne2, ?_⟩
    rw [token_roots _ _ _ hne2]
    exact hroots2
  | g :: rest =>
    dsimp only
    by_cases hc : (spanContains t.start t.stop g.start
        || spanContains t.start t.stop g.stop) = true
    · rw [if_pos hc]
      refine ⟨token_stack_ne _ _ _ hne2, ?_⟩
      rw [token_roots _ _ _ hne2]
      exact hroots2
    · rw [if_neg hc]
      refine ⟨token_stack_ne _ _ _ hne2, ?_⟩
      rw [token_roots _ _ _ hne2]
      exact hroots2

theorem foldl_enc : ∀ (toks : List LexTok) (st : LoopState),
    EncInv st → EncInv (List.foldl processToken st toks) := by
  intro toks
  induction toks with
  | nil => intro st h; exact h
  | cons t ts ih =>
    intro t0 h
    rw [List.foldl_cons]
    exact ih _ (processToken_enc t h)

/-! ## Flat runs (no pending nodes at all, the C6 situation) -/

/-- Invariant for C6: no nodes pending, no node ever opened, every
root-level element a leaf. -/
def FlatInv (st : LoopState) : Prop :=
  st.nodes = [] ∧ st.builder.stack = [] ∧
    ∀ x ∈ st.builder.roots, Element.isLeafB x = true

theorem processToken_flat {st : LoopState} (t : LexTok) (h : FlatInv st) :
    FlatInv (processToken st t) := by
  rcases h with ⟨hn, hs, hl⟩
  obtain ⟨b, nodes, gtoks⟩ := st
  dsimp only at hn hs hl
  subst hn
  unfold processToken
  have hop : openPhase [] b t.start t.stop = ([], b) := rfl
  match gtoks with
  | [] =>
    dsimp only
    rw [hop]
    obtain ⟨bst, broots, bdiags⟩ := b
    dsimp only at hs
    subst hs
    refine ⟨rfl, rfl, ?_⟩
    intro x hx
    simp only [Builder.token] at hx
    rcases List.mem_append.mp hx with hm | hm
    · exact hl x hm
    · rw [List.mem_singleton.mp hm]
      rfl
  | g :: grest =>
    dsimp only
    rw [hop]
    by_cases hc : (spanContains t.start t.stop g.start
        || spanContains t.start t.stop g.stop) = true
    · rw [if_pos hc]
      obtain ⟨bst, broots, bdiags⟩ := b
      dsimp only at hs
      subst hs
      refine ⟨rfl, rfl, ?_⟩
      intro x hx
      simp only [Builder.token] at hx
      rcases List.mem_append.mp hx with hm | hm
      · exact hl x hm
      · rw [List.mem_singleton.mp hm]
        rfl
    · rw [if_neg hc]
      obtain ⟨bst, broots, bdiags⟩ := b
      dsimp only at hs
      subst hs
      refine ⟨rfl, rfl, ?_⟩
      intro x hx
      simp only [Builder.token] at hx
      rcases List.mem_append.mp hx with hm | hm
      · exact hl x hm
      · rw [List.mem_singleton.mp hm]
        rfl

theorem foldl_flat : ∀ (toks : List LexTok) (st : LoopState),
    FlatInv st → FlatInv (List.foldl processToken st toks) := by
  intro toks
  induction toks with
  | nil => intro st h; exact h
  | cons t ts ih =>
    intro st h
    rw [List.foldl_cons]
    exact ih _ (processToken_flat t h)

/-! ## The pre-loop state, characterized -/

/-- The fine-grained tokens the loop consumes, per `pg_query::scan` outcome. -/
def exToks : Except String (List GrammarToken) → List GrammarToken
  | .ok ts => ts
  | .error _ => []

theorem preLoopState_eq (text : List Char) (off : Option Nat)
    (sr : Except String (List GrammarToken)) (pr : Except String (List AstNode)) :
    preLoopState text off sr pr =
      match sortNodes (exNodes pr) with
      | [] =>
        ⟨⟨[], [], errDiags sr (statementRange (off.getD 0) text.length)
            ++ errDiags pr (statementRange (off.getD 0) text.length)⟩, [], exToks sr⟩
      | n :: rest =>
        ⟨⟨[⟨n.depth, SyntaxKind.nodeKind n.kind, []⟩], [],
            errDiags sr (statementRange (off.getD 0) text.length)
            ++ errDiags pr (statementRange (off.getD 0) text.length)⟩, rest, exToks sr⟩ := by
  unfold preLoopState
  cases sr with
  | ok ts =>
    cases pr with
    | ok ns =>
      dsimp only [exNodes, errDiags, exToks]
      cases hs : sortNodes ns with
      | nil => simp [hs]
      | cons n rest => simp [hs, Builder.openNode, closeFrames]
    | error e =>
      dsimp only [exNodes, errDiags, exToks, sortNodes]
      simp [Builder.error]
  | error e1 =>
    cases pr with
    | ok ns =>
      dsimp only [exNodes, errDiags, exToks]
      cases hs : sortNodes ns with
      | nil => simp [hs, Builder.error]
      | cons n rest => simp [hs, Builder.error, Builder.openNode, closeFrames]
    | error e2 =>
      dsimp only [exNodes, errDiags, exToks, sortNodes]
      simp [Builder.error]

theorem preLoop_builderText (text : List Char) (off : Option Nat)
    (sr : Except String (List GrammarToken)) (pr : Except String (List AstNode)) :
    builderText (preLoopState text off sr pr).builder = [] := by
  rw [preLoopState_eq]
  cases sortNodes (exNodes pr) with
  | nil => simp [builderText, stackText, elemsText]
  | cons n rest => simp [builderText, stackText, elemsText]

theorem preLoop_diags (text : List Char) (off : Option Nat)
    (sr : Except String (List GrammarToken)) (pr : Except String (List AstNode)) :
    (preLoopState text off sr pr).builder.diags =
      errDiags sr (statementRange (off.getD 0) text.length)
      ++ errDiags pr (statementRange (off.getD 0) text.length) := by
  rw [preLoopState_eq]
  cases sortNodes (exNodes pr) with
  | nil => rfl
  | cons n rest => rfl

theorem preLoop_depthInv (text : List Char) (off : Option Nat)
    (sr : Except String (List GrammarToken)) (pr : Except String (List AstNode))
    (hd : ∀ n ∈ exNodes pr, 1 ≤ n.depth) :
    DepthInv (preLoopState text off sr pr) := by
  rw [preLoopState_eq]
  cases hs : sortNodes (exNodes pr) with
  | nil =>
    constructor
    · intro f hf; simp at hf
    · intro n hn; simp at hn
  | cons n0 rest =>
    constructor
    · intro f hf
      rw [List.mem_singleton.mp hf]
      exact hd n0 (sortNodes_mem (hs ▸ List.mem_cons_self n0 rest))
    · intro n hn
      exact hd n (sortNodes_mem (hs ▸ List.mem_cons_of_mem n0 hn))

/-! ## Core end-to-end facts, shared by the per-claim theorems -/

theorem lossless_aux (text : List Char) (off : Option Nat)
    (sr : Except String (List GrammarToken)) (pr : Except String (List AstNode))
    (r : ParseResult) (hd : ∀ n ∈ exNodes pr, 1 ≤ n.depth)
    (h : parse_statement text off sr pr = some r) : elemsText r.tree = text := by
  unfold parse_statement at h
  cases hl : lex text with
  | none => rw [hl] at h; simp at h
  | some toks =>
    rw [hl] at h
    dsimp only at h
    injection h with h
    have hinv : DepthInv (List.foldl processToken (preLoopState text off sr pr) toks) :=
      foldl_depthInv toks _ (preLoop_depthInv text off sr pr hd)
    have hnil := closeFrames_nil
      (List.foldl processToken (preLoopState text off sr pr) toks).builder.stack
      (List.foldl processToken (preLoopState text off sr pr) toks).builder.roots hinv.1
    have htext := closeFrames_text 1
      (List.foldl processToken (preLoopState text off sr pr) toks).builder.stack
      (List.foldl processToken (preLoopState text off sr pr) toks).builder.roots
    rw [hnil] at htext
    simp only [stackText, List.append_nil] at htext
    have hbt : builderText (List.foldl processToken (preLoopState text off sr pr) toks).builder
        = concatSlices toks := by
      rw [foldl_text, preLoop_builderText]
      simp
    rw [← h]
    dsimp only
    rw [htext]
    rw [show elemsText (List.foldl processToken (preLoopState text off sr pr) toks).builder.roots
          ++ stackText (List.foldl processToken (preLoopState text off sr pr) toks).builder.stack
        = builderText (List.foldl processToken (preLoopState text off sr pr) toks).builder from rfl]
    rw [hbt]
    exact lex_sound hl

theorem completes_aux (text : List Char) (off : Option Nat)
    (sr : Except String (List GrammarToken)) (pr : Except String (List AstNode))
    (toks : List LexTok) (h : lex text = some toks) :
    (parse_statement text off sr pr).isSome = true := by
  unfold parse_statement
  rw [h]
  rfl

theorem diags_aux (text : List Char) (off : Option Nat)
    (sr : Except String (List GrammarToken)) (pr : Except String (List AstNode))
    (toks : List LexTok) (h : lex text = some toks) :
    (parse_statement text off sr pr).map ParseResult.diags
      = some (errDiags sr (statementRange (off.getD 0) text.length)
          ++ errDiags pr (statementRange (off.getD 0) text.length)) := by
  unfold parse_statement
  rw [h]
  dsimp only [Option.map]
  rw [foldl_diags, preLoop_diags]

theorem flat_aux (text : List Char) (off : Option Nat)
    (sr : Except String (List GrammarToken)) (e : String)
    (toks : List LexTok) (h : lex text = some toks) :
    (parse_statement text off sr (Except.error e)).map
      (fun r => (r.tree.all Element.isLeafB, elemsText r.tree, r.diags.isEmpty))
      = some (true, text, false) := by
  have hflat : FlatInv (preLoopState text off sr (Except.error e)) := by
    rw [preLoopState_eq]
    dsimp only [exNodes, sortNodes]
    refine ⟨rfl, rfl, ?_⟩
    intro x hx
    simp at hx
  have hinv := foldl_flat toks _ hflat
  rcases hinv with ⟨hn, hs, hl⟩
  have hbt : builderText
      (List.foldl processToken (preLoopState text off sr (Except.error e)) toks).builder
      = concatSlices toks := by
    rw [foldl_text, preLoop_builderText]
    simp
  unfold parse_statement
  rw [h]
  dsimp only [Option.map]
  rw [hs]
  simp only [closeFrames]
  have h1 : (List.foldl processToken (preLoopState text off sr (Except.error e))
      toks).builder.roots.all Element.isLeafB = true :=
    List.all_eq_true.mpr (fun x hx => hl x hx)
  have h2 : elemsText (List.foldl processToken (preLoopState text off sr (Except.error e))
      toks).builder.roots = text := by
    unfold builderText at hbt
    rw [hs] at hbt
    simp only [stackText, List.append_nil] at hbt
    rw [hbt]
    exact lex_sound h
  have h3 : (List.foldl processToken (preLoopState text off sr (Except.error e))
      toks).builder.diags.isEmpty = false := by
    rw [foldl_diags, preLoop_diags]
    simp [errDiags]
  rw [h1, h2, h3]

theorem enc_aux (text : List Char) (off : Option Nat)
    (sr : Except String (List GrammarToken)) (ns : List AstNode)
    (n0 : AstNode) (rest : List AstNode) (toks : List LexTok)
    (hs : sortNodes ns = n0 :: rest) (h : lex text = some toks) :
    (parse_statement text off sr (Except.ok ns)).map
      (fun r => r.tree.all Element.isNodeB) = some true := by
  have henc : EncInv (preLoopState text off sr (Except.ok ns)) := by
    rw [preLoopState_eq]
    dsimp only [exNodes]
    rw [hs]
    refine ⟨by simp, ?_⟩
    intro x hx
    simp at hx
  have hinv := foldl_enc toks _ henc
  rcases hinv with ⟨hne, hroots⟩
  unfold parse_statement
  rw [h]
  dsimp only [Option.map]
  have hall : ((closeFrames 1
      (List.foldl processToken (preLoopState text off sr (Except.ok ns)) toks).builder.stack
      (List.foldl processToken (preLoopState text off sr (Except.ok ns)) toks).builder.roots).2.all
      Element.isNodeB) = true :=
    List.all_eq_true.mpr (closeFrames_roots _ 1 _ hroots)
  rw [hall]

theorem preLoop_stack_ok (text : List Char) (off : Option Nat)
    (sr : Except String (List GrammarToken)) (ns : List AstNode)
    (n0 : AstNode) (rest : List AstNode) (hs : sortNodes ns = n0 :: rest) :
    (preLoopState text off sr (Except.ok ns)).builder.stack
      = [⟨n0.depth, SyntaxKind.nodeKind n0.kind, []⟩] := by
  rw [preLoopState_eq]
  dsimp only [exNodes]
  rw [hs]

theorem preLoop_nodes_ok (text : List Char) (off : Option Nat)
    (sr : Except String (List GrammarToken)) (ns : List AstNode) :
    (preLoopState text off sr (Except.ok ns)).nodes = (sortNodes ns).tail := by
  rw [preLoopState_eq]
  dsimp only [exNodes]
  cases sortNodes ns with
  | nil => rfl
  | cons n rest => rfl

/-! # The claims -/

/-- Claim C1 (losslessness): for every statement text on which
`parse_statement` completes (no classifier panic), the in-order
concatenation of the leaf text slices of the produced tree is exactly the
input text — for any oracle outcome whatsoever (valid or invalid SQL, scan
or parse failure).  The depth hypothesis is the spec's AstNode invariant
`depth ≥ 1` on the Grammar Oracle's output. -/
theorem parse_statement_lossless (text : List Char) (off : Option Nat)
    (sr : Except String (List GrammarToken)) (pr : Except String (List AstNode))
    (r : ParseResult) (hd : ∀ n ∈ exNodes pr, 1 ≤ n.depth)
    (h : parse_statement text off sr pr = some r) : elemsText r.tree = text :=
  lossless_aux text off sr pr r hd h

/-- Witness for C1 at the one-word statement `a` with a failing parse. -/
theorem parse_statement_lossless_witness :
    elemsText [Element.leaf (SyntaxKind.coarse StatementToken.Word) ['a']] = ['a'] :=
  parse_statement_lossless ['a'] none (Except.ok []) (Except.error "e")
    ⟨[Element.leaf (SyntaxKind.coarse StatementToken.Word) ['a']], [⟨"e", (0, 1)⟩]⟩
    (by intro n hn; simp [exNodes] at hn) rfl

/-- Claim C2, counterexample: the malformed SQL text consisting of an empty
single-quoted string literal makes the classifier fail (`'([^']+)'` requires
a nonempty body and a lone quote matches nothing), and `parse_statement`
panics at statement.rs line 184 (modelled as `none`) instead of producing a
tree plus diagnostics. -/
theorem parse_statement_crash_on_empty_literal :
    parse_statement ['\'', '\''] none (Except.ok []) (Except.ok []) = none := rfl

/-- Claim C2, amended: for every input text that the classifier lexes in
full (every byte classified), `parse_statement` completes and yields a
result, whatever the oracle outcomes; the no-crash guarantee holds only on
that domain. -/
theorem parse_statement_completes_on_classified_input (text : List Char)
    (off : Option Nat) (sr : Except String (List GrammarToken))
    (pr : Except String (List AstNode)) (toks : List LexTok)
    (h : lex text = some toks) : (parse_statement text off sr pr).isSome = true :=
  completes_aux text off sr pr toks h

/-- Witness for the amended C2 at the text `a`. -/
theorem parse_statement_completes_on_classified_input_witness :
    (parse_statement ['a'] none (Except.ok []) (Except.ok [])).isSome = true :=
  parse_statement_completes_on_classified_input ['a'] none (Except.ok [])
    (Except.ok []) [⟨StatementToken.Word, ['a'], 0, 1⟩] rfl

/-- A string matched in full as one token by the classifier's maximal-munch
step: exactly the instances of the supported character classes (one
punctuation character, a word, a quoted literal, a space/newline/tab run, a
comment). -/
def IsClassInstance (cs : List Char) : Prop :=
  ∃ t, lexStep cs = some (t, cs.length)

/-- Texts that are concatenations of supported class instances. -/
inductive ComposedOfClasses : List Char → Prop where
  | nil : ComposedOfClasses []
  | cons (xs ys : List Char) : IsClassInstance xs → ComposedOfClasses ys →
      ComposedOfClasses (xs ++ ys)

/-- Claim C3, counterexample: the 5-character text built from the supported
class instances `--` (a line comment) followed by a single-quoted literal
containing a newline is composed only of supported character classes, yet
the classifier errs: maximal munch makes the line comment swallow the
literal's opening quote, and the stranded closing quote matches no pattern. -/
theorem classifier_error_on_composed_text :
    ComposedOfClasses ['-', '-', '\'', '\n', '\''] ∧
      lex ['-', '-', '\'', '\n', '\''] = none := by
  constructor
  · have h1 : IsClassInstance ['-', '-'] := ⟨StatementToken.Comment, rfl⟩
    have h2 : IsClassInstance ['\'', '\n', '\''] := ⟨StatementToken.Sconst, rfl⟩
    exact ComposedOfClasses.cons ['-', '-'] ['\'', '\n', '\''] h1
      (ComposedOfClasses.cons ['\'', '\n', '\''] [] h2 ComposedOfClasses.nil)
  · rfl

/-- Claim C3, amended: the classifier is total — it classifies every byte,
with the slices reconstructing the text — on every input whose characters
all come from the quote-free supported alphabet (the 19 ASCII punctuation
characters, word characters, space, newline, tab; comments are built from
these).  With the single quote included, composed texts can err, as the
counterexample shows. -/
theorem classifier_total_without_quotes (text : List Char)
    (h : ∀ c ∈ text, SupportedNoQuote c = true) :
    (lex text).map concatSlices = some text := by
  have ht := lexAux_total text.length text 0 le_rfl h
  unfold lex
  cases hv : lexAux text.length 0 text with
  | none => rw [hv] at ht; simp at ht
  | some toks =>
    dsimp only [Option.map]
    rw [lexAux_sound text.length 0 text toks hv]

/-- Witness for the amended C3 at the text `a ;`. -/
theorem classifier_total_without_quotes_witness :
    (lex ['a', ' ', ';']).map concatSlices = some ['a', ' ', ';'] :=
  classifier_total_without_quotes ['a', ' ', ';'] (by decide)

/-- Claim C4 (kind resolution precedence): for each classified token, if the
next pending GrammarToken's span starts or ends inside the token's span it
is consumed and the leaf gets its fine-grained kind, otherwise the leaf gets
the coarse `StatementToken::syntax_kind`; in both cases the appended leaf's
text is exactly `lexer.slice()` — the builder text grows by precisely the
classifier slice, never by the GrammarToken's boundaries. -/
theorem processToken_kind_resolution (st : LoopState) (t : LexTok)
    (g : GrammarToken) (gs : List GrammarToken) (hg : st.gtoks = g :: gs) :
    (processToken st t =
      if spanContains t.start t.stop g.start || spanContains t.start t.stop g.stop then
        ⟨(openPhase st.nodes st.builder t.start t.stop).2.token
          (SyntaxKind.fineTok g.kind) t.slice,
         (openPhase st.nodes st.builder t.start t.stop).1, gs⟩
      else
        ⟨(openPhase st.nodes st.builder t.start t.stop).2.token
          (StatementToken.syntax_kind t.tok) t.slice,
         (openPhase st.nodes st.builder t.start t.stop).1, g :: gs⟩)
    ∧ builderText (processToken st t).builder = builderText st.builder ++ t.slice := by
  constructor
  · unfold processToken
    rw [hg]
  · exact processToken_text st t

/-- Witness for C4: a GrammarToken starting inside the current span is
consumed and labels the leaf with its fine-grained kind. -/
theorem processToken_kind_resolution_witness :
    processToken ⟨⟨[], [], []⟩, [], [⟨0, 1, 5⟩]⟩ ⟨StatementToken.Word, ['a'], 0, 1⟩
      = ⟨Builder.token ⟨[], [], []⟩ (SyntaxKind.fineTok 5) ['a'], [], []⟩ :=
  (processToken_kind_resolution ⟨⟨[], [], []⟩, [], [⟨0, 1, 5⟩]⟩
    ⟨StatementToken.Word, ['a'], 0, 1⟩ ⟨0, 1, 5⟩ [] rfl).1.trans (by rfl)

/-- Claim C5 (oracle failure is recoverable): whenever the classifier lexes
the text, the result's diagnostics are exactly one `ParseDiagnostic` per
failing oracle call — in call order, each carrying the oracle's message and
the whole-statement range — and when `parse` fails the tree still covers
every byte of the text. -/
theorem parse_statement_oracle_failure_recovery (text : List Char)
    (off : Option Nat) (sr : Except String (List GrammarToken))
    (pr : Except String (List AstNode)) (e : String) (toks : List LexTok)
    (h : lex text = some toks) :
    (parse_statement text off sr pr).map ParseResult.diags
      = some (errDiags sr (statementRange (off.getD 0) text.length)
          ++ errDiags pr (statementRange (off.getD 0) text.length))
    ∧ (parse_statement text off sr (Except.error e)).map (fun r => elemsText r.tree)
      = some text := by
  constructor
  · exact diags_aux text off sr pr toks h
  · have hc := completes_aux text off sr (Except.error e) toks h
    cases hp : parse_statement text off sr (Except.error e) with
    | none => rw [hp] at hc; simp at hc
    | some r =>
      have hd : ∀ n ∈ exNodes (Except.error e : Except String (List AstNode)),
          1 ≤ n.depth := by
        intro n hn
        simp [exNodes] at hn
      dsimp only [Option.map]
      rw [lossless_aux text off sr (Except.error e) r hd hp]

/-- Witness for C5: both oracle calls fail on the text `a`. -/
theorem parse_statement_oracle_failure_recovery_witness :
    (parse_statement ['a'] none (Except.error "s") (Except.error "p")).map
        ParseResult.diags
      = some (errDiags (Except.error "s" : Except String (List GrammarToken))
            (statementRange 0 1)
          ++ errDiags (Except.error "p" : Except String (List AstNode))
            (statementRange 0 1))
    ∧ (parse_statement ['a'] none (Except.error "s") (Except.error "p")).map
        (fun r => elemsText r.tree) = some ['a'] :=
  parse_statement_oracle_failure_recovery ['a'] none (Except.error "s")
    (Except.error "p") "p" [⟨StatementToken.Word, ['a'], 0, 1⟩] rfl

/-- Claim C6 (degradation on parse failure): when the oracle's `parse` call
fails, the produced tree has no internal nodes (every element is a
root-level leaf), losslessness still holds, and the diagnostics are
nonempty. -/
theorem parse_statement_parse_failure_degradation (text : List Char)
    (off : Option Nat) (sr : Except String (List GrammarToken)) (e : String)
    (toks : List LexTok) (h : lex text = some toks) :
    (parse_statement text off sr (Except.error e)).map
      (fun r => (r.tree.all Element.isLeafB, elemsText r.tree, r.diags.isEmpty))
      = some (true, text, false) :=
  flat_aux text off sr e toks h

/-- Witness for C6 at the text `a`. -/
theorem parse_statement_parse_failure_degradation_witness :
    (parse_statement ['a'] none (Except.ok []) (Except.error "e")).map
      (fun r => (r.tree.all Element.isLeafB, elemsText r.tree, r.diags.isEmpty))
      = some (true, ['a'], false) :=
  parse_statement_parse_failure_degradation ['a'] none (Except.ok []) "e"
    [⟨StatementToken.Word, ['a'], 0, 1⟩] rfl

/-- Claim C7 (root initialization): when `parse` succeeds with at least one
AstNode, the first node of the position-sorted sequence is opened before any
classifier token is consumed — the builder enters the loop with exactly that
one open frame, at depth 1 when the oracle reports the root at depth 1 (the
spec's invariant) — and consequently every leaf of the final tree sits
inside an internal node (no root-level leaf exists). -/
theorem parse_statement_root_initialization (text : List Char)
    (off : Option Nat) (sr : Except String (List GrammarToken))
    (ns : List AstNode) (n0 : AstNode) (rest : List AstNode) (toks : List LexTok)
    (hs : sortNodes ns = n0 :: rest) (hd : n0.depth = 1)
    (h : lex text = some toks) :
    (preLoopState text off sr (Except.ok ns)).builder.stack
        = [⟨1, SyntaxKind.nodeKind n0.kind, []⟩]
    ∧ (parse_statement text off sr (Except.ok ns)).map
        (fun r => r.tree.all Element.isNodeB) = some true := by
  constructor
  · rw [preLoop_stack_ok text off sr ns n0 rest hs, hd]
  · exact enc_aux text off sr ns n0 rest toks hs h

/-- Witness for C7: one depth-1 node over the text `a`. -/
theorem parse_statement_root_initialization_witness :
    (preLoopState ['a'] none (Except.ok []) (Except.ok [⟨7, 0, 1⟩])).builder.stack
        = [⟨1, SyntaxKind.nodeKind 7, []⟩]
    ∧ (parse_statement ['a'] none (Except.ok []) (Except.ok [⟨7, 0, 1⟩])).map
        (fun r => r.tree.all Element.isNodeB) = some true :=
  parse_statement_root_initialization ['a'] none (Except.ok []) [⟨7, 0, 1⟩]
    ⟨7, 0, 1⟩ [] [⟨StatementToken.Word, ['a'], 0, 1⟩] rfl rfl rfl

/-- Claim C8 (node-opening phase): the AstNode sequence is sorted by
position before use (the sort is a position-sorted permutation, and the loop
starts on the sorted sequence's tail after the root is opened), and per
token the opening phase pops and opens exactly the maximal prefix of pending
nodes whose positions fall in the current span — each at its own reported
depth, possibly several from one span — leaving the first out-of-span node
pending. -/
theorem parse_statement_node_opening :
    (∀ ns : List AstNode,
      List.Pairwise (fun a b => a.position ≤ b.position) (sortNodes ns)
      ∧ List.Perm (sortNodes ns) ns)
    ∧ (∀ (text : List Char) (off : Option Nat)
        (sr : Except String (List GrammarToken)) (ns : List AstNode),
        (preLoopState text off sr (Except.ok ns)).nodes = (sortNodes ns).tail)
    ∧ (∀ (nodes : List AstNode) (b : Builder) (s e : Nat),
        openPhase nodes b s e =
          (nodes.dropWhile (fun n => spanContains s e n.position),
           List.foldl
             (fun b' n => Builder.openNode b' (SyntaxKind.nodeKind n.kind) n.depth) b
             (nodes.takeWhile (fun n => spanContains s e n.position)))) :=
  ⟨fun ns => ⟨sortNodes_sorted ns, sortNodes_perm ns⟩,
   fun text off sr ns => preLoop_nodes_ok text off sr ns,
   openPhase_eq⟩

/-- Claim C9 (statement range in u32 arithmetic): the whole-statement range
is `(offset, offset + len)` — a well-formed span — exactly on the
no-overflow domain `offset + len < 2^32`; outside it the wrapping `u32`
addition produces an inverted pair, as at `offset = 2^32 - 1, len = 1`. -/
theorem statementRange_u32_overflow :
    (∀ offset len : Nat, offset + len < 4294967296 →
      statementRange offset len = (offset, offset + len) ∧ offset ≤ offset + len)
    ∧ (statementRange 4294967295 1).2 < (statementRange 4294967295 1).1 := by
  constructor
  · intro offset len hlt
    have h1 : offset < 4294967296 := by omega
    have h2 : len < 4294967296 := by omega
    unfold statementRange u32
    rw [Nat.mod_eq_of_lt h1, Nat.mod_eq_of_lt h2, Nat.mod_eq_of_lt hlt]
    exact ⟨rfl, Nat.le_add_right offset len⟩
  · decide

/-- Witness for C9 on the no-overflow side. -/
theorem statementRange_u32_overflow_witness :
    statementRange 3 4 = (3, 7) ∧ 3 ≤ 7 :=
  statementRange_u32_overflow.1 3 4 (by decide)

/-- Claim C10 (strictly containing GrammarTokens are skipped): per
classified token at most one GrammarToken is consumed, and a GrammarToken
whose span strictly contains the token's half-open span (starts before it,
ends at or after its end) is not consumed — the leaf falls back to the
coarse kind despite the overlap. -/
theorem processToken_strict_containment_skipped (st : LoopState) (t : LexTok)
    (g : GrammarToken) (gs : List GrammarToken) (hg : st.gtoks = g :: gs)
    (h1 : g.start < t.start) (h2 : t.stop ≤ g.stop) :
    (processToken st t).gtoks = g :: gs
    ∧ (processToken st t).builder
        = (openPhase st.nodes st.builder t.start t.stop).2.token
            (StatementToken.syntax_kind t.tok) t.slice
    ∧ ∀ (st' : LoopState) (t' : LexTok),
        st'.gtoks.length ≤ (processToken st' t').gtoks.length + 1 := by
  have hc : (spanContains t.start t.stop g.start
      || spanContains t.start t.stop g.stop) = false := by
    simp only [spanContains, Bool.or_eq_false_iff, Bool.and_eq_false_iff,
      decide_eq_false_iff_not]
    omega
  refine ⟨?_, ?_, ?_⟩
  · unfold processToken
    rw [hg]
    dsimp only
    rw [if_neg (by simp [hc])]
  · unfold processToken
    rw [hg]
    dsimp only
    rw [if_neg (by simp [hc])]
  · intro st' t'
    unfold processToken
    match st'.gtoks with
    | [] => simp
    | g' :: gs' =>
      dsimp only
      by_cases hcc : (spanContains t'.start t'.stop g'.start
          || spanContains t'.start t'.stop g'.stop) = true
      · rw [if_pos hcc]
        simp
      · rw [if_neg hcc]
        simp

/-- Witness for C10: a GrammarToken spanning `[0, 9)` strictly contains the
token span `[1, 2)` and is skipped; the leaf keeps its coarse kind. -/
theorem processToken_strict_containment_skipped_witness :
    (processToken ⟨⟨[], [], []⟩, [], [⟨0, 9, 5⟩]⟩
        ⟨StatementToken.Word, ['b'], 1, 2⟩).gtoks = [⟨0, 9, 5⟩]
    ∧ (processToken ⟨⟨[], [], []⟩, [], [⟨0, 9, 5⟩]⟩
        ⟨StatementToken.Word, ['b'], 1, 2⟩).builder
      = Builder.token ⟨[], [], []⟩
          (StatementToken.syntax_kind StatementToken.Word) ['b'] :=
  ⟨(processToken_strict_containment_skipped ⟨⟨[], [], []⟩, [], [⟨0, 9, 5⟩]⟩
      ⟨StatementToken.Word, ['b'], 1, 2⟩ ⟨0, 9, 5⟩ [] rfl (by decide) (by decide)).1,
   (processToken_strict_containment_skipped ⟨⟨[], [], []⟩, [], [⟨0, 9, 5⟩]⟩
      ⟨StatementToken.Word, ['b'], 1, 2⟩ ⟨0, 9, 5⟩ [] rfl (by decide) (by decide)).2.1⟩

end PgLsp
